import Mathlib

/-!
Verification of the limg image library (`src/pixel.rs`, `src/image.rs`,
`src/error.rs`) against its natural-language specification.

The Rust code is shallowly embedded: `u8`/`u16`/`usize` values become `Nat`
(the operations modelled here cannot overflow their machine width, so `Nat`
arithmetic is exact; where a narrowing cast occurs the embedding notes it),
slices become `List`, fallible operations return `Except`/`Option`, and a
Rust panic is modelled as `none`.

The `limg_core` format-codec crate is an external collaborator of this
repository (its sources are not part of the repo); the definitions in the
"format codec" section below are modelled from the specification's contract
for it and are marked `Modelled from the spec:`.
-/

namespace Limg

/-! ## Definitions: the shallow embedding -/

/-! ### Pixel (src/pixel.rs)

`Pixel(pub u16)` is an RGB565 packed value: bits 11–15 red, 5–10 green,
0–4 blue. -/

structure Pixel where
  val : Nat
deriving DecidableEq, Repr

/-- `Pixel::R_MASK`. -/
def Pixel.R_MASK : Nat := 0xF800

/-- `Pixel::G_MASK`. -/
def Pixel.G_MASK : Nat := 0x07E0

/-- `Pixel::B_MASK`. -/
def Pixel.B_MASK : Nat := 0x001F

/-- `Pixel::BLACK`. -/
def Pixel.BLACK : Pixel := ⟨0x0000⟩

/-- `Pixel::RED`. -/
def Pixel.RED : Pixel := ⟨0xF800⟩

/-- `Pixel::GREEN`. -/
def Pixel.GREEN : Pixel := ⟨0x07E0⟩

/-- `Pixel::BLUE`. -/
def Pixel.BLUE : Pixel := ⟨0x001F⟩

/-- `Pixel::WHITE`. -/
def Pixel.WHITE : Pixel := ⟨0xFFFF⟩

/-- `Pixel::r`: `let r = ((self.0 & R_MASK) >> 11) as u8; (r << 3) | (r >> 2)`.
The intermediate `r` is at most `0x1F`, so the `u8` cast and the shifts
cannot truncate and `Nat` arithmetic is exact. -/
def Pixel.r (p : Pixel) : Nat :=
  let r := (p.val &&& Pixel.R_MASK) >>> 11
  (r <<< 3) ||| (r >>> 2)

/-- `Pixel::g`: `let g = ((self.0 & G_MASK) >> 5) as u8; (g << 2) | (g >> 4)`. -/
def Pixel.g (p : Pixel) : Nat :=
  let g := (p.val &&& Pixel.G_MASK) >>> 5
  (g <<< 2) ||| (g >>> 4)

/-- `Pixel::b`: `let b = (self.0 & B_MASK) as u8; (b << 3) | (b >> 2)`. -/
def Pixel.b (p : Pixel) : Nat :=
  let b := p.val &&& Pixel.B_MASK
  (b <<< 3) ||| (b >>> 2)

/-- `Pixel::set_r`: `let r = ((r as u16) << (11 - 3)) & R_MASK;
self.0 = r | (self.0 & !R_MASK)`. `!R_MASK` as `u16` is `0x07FF`.
The argument is a `u8` (theorems assume `< 256`); the `u8 → u16` cast is lossless. -/
def Pixel.set_r (p : Pixel) (r : Nat) : Pixel :=
  ⟨((r <<< (11 - 3)) &&& Pixel.R_MASK) ||| (p.val &&& 0x07FF)⟩

/-- `Pixel::set_g`: `let g = ((g as u16) << (5 - 2)) & G_MASK;
self.0 = g | (self.0 & !G_MASK)`. `!G_MASK` as `u16` is `0xF81F`. -/
def Pixel.set_g (p : Pixel) (g : Nat) : Pixel :=
  ⟨((g <<< (5 - 2)) &&& Pixel.G_MASK) ||| (p.val &&& 0xF81F)⟩

/-- `Pixel::set_b`: `let b = (b as u16) >> 3; self.0 = b | (self.0 & !B_MASK)`.
`!B_MASK` as `u16` is `0xFFE0`. -/
def Pixel.set_b (p : Pixel) (b : Nat) : Pixel :=
  ⟨(b >>> 3) ||| (p.val &&& 0xFFE0)⟩

/-! ### ImageIndex (src/image.rs, lines 603–672)

Row-major coordinate iterator. The Rust `next(&mut self)` is embedded as a
step function returning the yielded item together with the successor state
(`none` leaves the state unchanged, as the Rust method does). All state
fields are `u16`; the increments below are guarded by `x < width` /
`y < height`, so `Nat` arithmetic is exact. -/

structure ImageIndex where
  width : Nat
  height : Nat
  x : Nat
  y : Nat
deriving DecidableEq, Repr

/-- `ImageIndex::new`. -/
def ImageIndex.new (width height : Nat) : ImageIndex :=
  { width, height, x := 0, y := 0 }

/-- `Iterator::next` for `ImageIndex`: yield `(x, y)` while `x < width && y < height`,
then advance `x`, wrapping to the next row when `x` reaches `width`. -/
def ImageIndex.next (s : ImageIndex) : Option ((Nat × Nat) × ImageIndex) :=
  if s.x < s.width ∧ s.y < s.height then
    some ((s.x, s.y),
      if s.x + 1 = s.width then { s with x := 0, y := s.y + 1 }
      else { s with x := s.x + 1 })
  else none

/-- `Iterator::size_hint` for `ImageIndex`: the exact remaining count
`width*height - (y*width + x)` (`saturating_sub` is `Nat` subtraction). -/
def ImageIndex.size_hint (s : ImageIndex) : Nat :=
  s.width * s.height - (s.y * s.width + s.x)

/-- `Iterator::nth` for `ImageIndex`: if fewer than `n+1` elements remain, set
the terminal state `(x, y) = (width, height)` and yield nothing; otherwise
jump to the linear offset `done + n`, recompute `x` (the source recomputes
only `x`, not `y`), yield, and advance as `next` would. -/
def ImageIndex.nth (s : ImageIndex) (n : Nat) : Option (Nat × Nat) × ImageIndex :=
  let total := s.width * s.height
  let done := s.y * s.width + s.x
  if total - done ≤ n then
    (none, { s with x := s.width, y := s.height })
  else
    let linear := done + n
    let x := linear % s.width
    let ret := (x, s.y)
    (some ret,
      if x + 1 = s.width then { s with x := 0, y := s.y + 1 }
      else { s with x := x + 1 })

/-- Calling `next` `n` times, keeping only the final state. -/
def ImageIndex.stepN (s : ImageIndex) : Nat → ImageIndex
  | 0 => s
  | k + 1 =>
    match s.next with
    | some (_, s') => s'.stepN k
    | none => s.stepN k

/-- The full sequence produced by iterating `next` to exhaustion. -/
def ImageIndex.toList (s : ImageIndex) : List (Nat × Nat) :=
  match h : s.next with
  | some (p, s') => p :: s'.toList
  | none => []
termination_by s.size_hint
decreasing_by
  simp only [ImageIndex.next] at h
  split at h
  case isTrue hc =>
    have e1 : (s.y + 1) * s.width = s.y * s.width + s.width := by ring
    have e2 : (s.y + 1) * s.width ≤ s.height * s.width :=
      Nat.mul_le_mul_right s.width (by omega)
    have e3 : s.width * s.height = s.height * s.width := Nat.mul_comm _ _
    rw [Option.some_inj] at h
    have hs : s' = if s.x + 1 = s.width then { s with x := 0, y := s.y + 1 }
        else { s with x := s.x + 1 } := (congrArg Prod.snd h).symm
    have ha1 : s.width * s.height - ((s.y + 1) * s.width + 0) < s.size_hint := by
      simp only [ImageIndex.size_hint]
      omega
    have ha2 : s.width * s.height - (s.y * s.width + (s.x + 1)) < s.size_hint := by
      simp only [ImageIndex.size_hint]
      omega
    rw [hs]
    split
    · exact ha1
    · exact ha2
  case isFalse => exact absurd h (by simp)

/-- `image_index`: the row-major linear index `y * width + x`. -/
def image_index (x y width : Nat) : Nat :=
  y * width + x

structure Image where
  width : Nat
  height : Nat
  transparent_color : Option Pixel
  pixels : List Pixel
deriving DecidableEq, Repr

/-- `Image::new`: a `width*height` buffer of black pixels, no transparent color. -/
def Image.new (width height : Nat) : Image :=
  { width, height, transparent_color := none,
    pixels := List.replicate (width * height) Pixel.BLACK }

/-- `Image::with_transparent_color`: like `new` but with the key set. -/
def Image.with_transparent_color (width height : Nat) (transparent_color : Pixel) : Image :=
  { width, height, transparent_color := some transparent_color,
    pixels := List.replicate (width * height) Pixel.BLACK }

/-- `Image::coordinates`: a fresh iterator over the image's dimensions. -/
def Image.coordinates (img : Image) : ImageIndex :=
  ImageIndex.new img.width img.height

/-- `Image::get_pixel`: checks `x < self.width || y < self.height` (the source
really uses `||`) and then reads through `get_unchecked`. An out-of-range
unchecked read is undefined behaviour in the source; it is modelled here as a
defaulted read (`getD`), and the claims below evaluate it only at indices
inside the buffer. -/
def Image.get_pixel (img : Image) (x y : Nat) : Option Pixel :=
  if x < img.width ∨ y < img.height then
    some (img.pixels.getD (image_index x y img.width) Pixel.BLACK)
  else
    none

/-- `Image::get_pixel_mut`: same `||` check as `get_pixel`, yielding the
pixel the mutable reference would point at. -/
def Image.get_pixel_mut (img : Image) (x y : Nat) : Option Pixel :=
  if x < img.width ∨ y < img.height then
    some (img.pixels.getD (image_index x y img.width) Pixel.BLACK)
  else
    none

/-- `Index<(u16, u16)> for Image`: `&self.pixels[image_index ...]` — a plain
slice index of the linear offset; `none` models the panic. -/
def Image.index_get (img : Image) (x y : Nat) : Option Pixel :=
  img.pixels.get? (image_index x y img.width)

/-- `IndexMut<(u16, u16)> for Image`: the written-back image, or `none` for
the panic. -/
def Image.index_set (img : Image) (x y : Nat) (p : Pixel) : Option Image :=
  if image_index x y img.width < img.pixels.length then
    some { img with pixels := img.pixels.set (image_index x y img.width) p }
  else
    none

/-- `Image::fill`: overwrite every element of the pixel buffer. -/
def Image.fill (img : Image) (p : Pixel) : Image :=
  { img with pixels := List.replicate img.pixels.length p }

/-- `Image::set_transparent_color`. -/
def Image.set_transparent_color (img : Image) (c : Option Pixel) : Image :=
  { img with transparent_color := c }

/-- A 2×2 image whose four pixels are pairwise distinct, for exhibiting the
indexing behaviour of claim C4. -/
def imgFour : Image :=
  { width := 2, height := 2, transparent_color := none,
    pixels := [⟨1⟩, ⟨2⟩, ⟨3⟩, ⟨4⟩] }

/-- A wire byte. -/
abbrev Byte := Fin 256

/-- Modelled from the spec: the pixel-plane byte-order selector recorded in
the header (`limg_core::PixelEndian`). -/
inductive PixelEndian where
  | Little
  | Big
deriving DecidableEq, Repr

/-- Modelled from the spec: the color-type selector (`limg_core::ColorType`);
the core always passes RGB565. -/
inductive ColorType where
  | Rgb565
deriving DecidableEq, Repr

/-- Modelled from the spec: bytes per encoded pixel of a color type. -/
def ColorType.bytes_per_pixel : ColorType → Nat
  | .Rgb565 => 2

/-- The error taxonomy of §7 / `src/error.rs` (`IoError` without its payload). -/
inductive Error where
  | ZeroImageDimensions
  | InputBufferTooSmall
  | OutputBufferTooSmall
  | UnsupportedFormat
  | IoError
deriving DecidableEq, Repr

/-- Modelled from the spec: the header metadata struct
(`limg_core::ImageSpec`). -/
structure ImageSpec where
  width : Nat
  height : Nat
  transparent_color : Option Nat
  pixel_endian : PixelEndian
deriving DecidableEq, Repr

/-- Modelled from the spec: `ImageSpec::num_pixels`. -/
def ImageSpec.num_pixels (s : ImageSpec) : Nat :=
  s.width * s.height

/-- Modelled from the spec: `limg_core::PIXEL_BYTES`, the fixed 2 bytes per
encoded pixel. -/
def PIXEL_BYTES : Nat := 2

/-- Modelled from the spec: `limg_core::HEADER_SIZE`. The spec fixes only its
existence and contents, not the exact offsets; the model uses a 10-byte
layout — 2 magic bytes, width `u16` LE, height `u16` LE, transparent flag,
transparent value `u16` LE, endianness byte. -/
def HEADER_SIZE : Nat := 10

/-- Modelled from the spec: `decoded_size`, the decoded pixel-plane byte
length derived from the header (§4.3 step 2). -/
def decoded_size (spec : ImageSpec) (ct : ColorType) : Nat :=
  spec.num_pixels * ct.bytes_per_pixel

/-- Modelled from the spec: `encoded_size`, the total encoded byte length
`HEADER_SIZE + width*height*PIXEL_BYTES` (§8). -/
def encoded_size (spec : ImageSpec) : Nat :=
  HEADER_SIZE + spec.num_pixels * PIXEL_BYTES

/-- The low byte of a natural number. -/
def byteOf (n : Nat) : Byte :=
  ⟨n % 256, by omega⟩

/-- Modelled from the spec: `decode_header` — parse the fixed-size header
block, yielding the metadata or a decode error (bad magic, malformed flag
or endianness byte, zero dimensions, buffer shorter than the header). When
the transparent flag is absent the value bytes must be zero, so that decoding
accepts exactly the canonical encodings (`§4.3`/`§8` round-trip contract). -/
def decode_header : List Byte → Except Error ImageSpec
  | m0 :: m1 :: w0 :: w1 :: h0 :: h1 :: f :: t0 :: t1 :: e :: _ =>
    if m0.val = 0x4C ∧ m1.val = 0x49 then
      if (f.val = 0 ∧ t0.val = 0 ∧ t1.val = 0) ∨ f.val = 1 then
        if e.val = 0 ∨ e.val = 1 then
          if w0.val + 256 * w1.val = 0 ∨ h0.val + 256 * h1.val = 0 then
            .error .ZeroImageDimensions
          else
            .ok { width := w0.val + 256 * w1.val, height := h0.val + 256 * h1.val,
                  transparent_color :=
                    if f.val = 1 then some (t0.val + 256 * t1.val) else none,
                  pixel_endian := if e.val = 0 then .Little else .Big }
        else .error .UnsupportedFormat
      else .error .UnsupportedFormat
    else .error .UnsupportedFormat
  | _ => .error .InputBufferTooSmall

/-- Modelled from the spec: `encode_header` — write the fixed-size header
block for the metadata; encoding disallows zero dimensions (§7,
`src/error.rs`: ZeroImageDimensions is an encode-time error). The buffer is
modelled as exactly the bytes produced. -/
def encode_header (spec : ImageSpec) : Except Error (List Byte) :=
  if spec.width = 0 ∨ spec.height = 0 then .error .ZeroImageDimensions
  else
    .ok [⟨0x4C, by omega⟩, ⟨0x49, by omega⟩,
      byteOf spec.width, byteOf (spec.width / 256),
      byteOf spec.height, byteOf (spec.height / 256),
      (match spec.transparent_color with | none => ⟨0, by omega⟩ | some _ => ⟨1, by omega⟩),
      byteOf (spec.transparent_color.getD 0), byteOf (spec.transparent_color.getD 0 / 256),
      (match spec.pixel_endian with | .Little => ⟨0, by omega⟩ | .Big => ⟨1, by omega⟩)]

/-- Modelled from the spec: combine one wire 2-byte entry into a packed
16-bit value, per the pixel-plane endianness. -/
def combinePixel (e : PixelEndian) (b0 b1 : Byte) : Pixel :=
  match e with
  | .Little => ⟨b0.val + 256 * b1.val⟩
  | .Big => ⟨b1.val + 256 * b0.val⟩

/-- Modelled from the spec: the wire 2-byte entry of a packed pixel value
(the value is a `u16`, reinterpreted bytewise). -/
def pixelBytes (e : PixelEndian) (p : Pixel) : List Byte :=
  match e with
  | .Little => [byteOf p.val, byteOf (p.val / 256)]
  | .Big => [byteOf (p.val / 256), byteOf p.val]

/-- Modelled from the spec: decode a pixel plane two bytes at a time. -/
def decodePairs (e : PixelEndian) : List Byte → List Pixel
  | b0 :: b1 :: rest => combinePixel e b0 b1 :: decodePairs e rest
  | _ => []

/-- Modelled from the spec: `decode_data` — transcode the wire pixel plane
into packed pixels honoring the header's endianness; reports a size mismatch
(as the input-buffer error) unless the source is exactly the pixel-plane
size. -/
def decode_data (src : List Byte) (spec : ImageSpec) (ct : ColorType) :
    Except Error (List Pixel) :=
  if src.length = spec.num_pixels * ct.bytes_per_pixel then
    .ok (decodePairs spec.pixel_endian src)
  else
    .error .InputBufferTooSmall

/-- Modelled from the spec: `encode_data` — write each pixel's wire 2-byte
entry in the requested endianness. -/
def encodePixels (e : PixelEndian) : List Pixel → List Byte
  | [] => []
  | p :: rest => pixelBytes e p ++ encodePixels e rest

/-- `Image::from_buffer` (src/image.rs:326–344): decode the header, then let
`decode_data` decode the bytes after the header. The source allocates
`Box::<[Pixel]>::new_uninit_slice(pixels_size)` where
`pixels_size = decoded_size(...)` is a BYTE count — unlike `from_read`, it is
not divided by the bytes per pixel — so the buffer has `2 * width * height`
pixel elements of which only the first `width * height` are initialised by
the decode. The uninitialised trailing elements are modelled as zero pixels;
only their count is meaningful. -/
def Image.from_buffer (buf : List Byte) : Except Error Image :=
  match decode_header buf with
  | .error e => .error e
  | .ok spec =>
    match decode_data (buf.drop HEADER_SIZE) spec ColorType.Rgb565 with
    | .error e => .error e
    | .ok data =>
      .ok { width := spec.width, height := spec.height,
            transparent_color := spec.transparent_color.map Pixel.mk,
            pixels := data ++
              List.replicate (decoded_size spec ColorType.Rgb565 - data.length) ⟨0⟩ }

/-- `Image::from_read` (src/image.rs:460–486): the reader is modelled as the
byte stream it yields; a `read_exact` failure (stream shorter than requested)
surfaces as `IoError`. This variant allocates
`pixels_size / bytes_per_pixel` elements, so its buffer holds exactly
`width * height` pixels, all initialised. -/
def Image.from_read (input : List Byte) : Except Error Image :=
  if input.length < HEADER_SIZE then .error .IoError
  else
    match decode_header (input.take HEADER_SIZE) with
    | .error e => .error e
    | .ok spec =>
      if input.length - HEADER_SIZE < spec.num_pixels * PIXEL_BYTES then .error .IoError
      else
        match decode_data ((input.drop HEADER_SIZE).take (spec.num_pixels * PIXEL_BYTES))
            spec ColorType.Rgb565 with
        | .error e => .error e
        | .ok data =>
          .ok { width := spec.width, height := spec.height,
                transparent_color := spec.transparent_color.map Pixel.mk,
                pixels := data }

/-- `Image::to_buffer_with_endian` (src/image.rs:387–405): build the header
spec from the image fields and the requested endianness, take the first
`num_pixels * PIXEL_BYTES` bytes of the pixel buffer as the data slice
(`take num_pixels` at pixel granularity), and write the header followed by
the encoded pixel plane. The caller's buffer is modelled as exactly the
bytes produced. -/
def Image.to_buffer_with_endian (img : Image) (endian : PixelEndian) :
    Except Error (List Byte) :=
  let spec : ImageSpec :=
    { width := img.width, height := img.height,
      transparent_color := img.transparent_color.map Pixel.val,
      pixel_endian := endian }
  match encode_header spec with
  | .error e => .error e
  | .ok header => .ok (header ++ encodePixels endian (img.pixels.take spec.num_pixels))

/-- `Image::to_buffer`: the little-endian default entry point. -/
def Image.to_buffer (img : Image) : Except Error (List Byte) :=
  img.to_buffer_with_endian PixelEndian.Little

/-- A canonical 12-byte encoding of a 1×1 little-endian image with no
transparent color and the single pixel `0xCDAB`. -/
def demoBuf : List Byte :=
  [⟨0x4C, by omega⟩, ⟨0x49, by omega⟩, ⟨1, by omega⟩, ⟨0, by omega⟩,
   ⟨1, by omega⟩, ⟨0, by omega⟩, ⟨0, by omega⟩, ⟨0, by omega⟩,
   ⟨0, by omega⟩, ⟨0, by omega⟩, ⟨0xAB, by omega⟩, ⟨0xCD, by omega⟩]

/-- Decidable equality for `Except`, used to evaluate concrete encode/decode
results. -/
instance {e a : Type} [DecidableEq e] [DecidableEq a] : DecidableEq (Except e a)
  | .error x, .error y =>
    if h : x = y then .isTrue (congrArg Except.error h)
    else .isFalse (fun hc => h (Except.error.inj hc))
  | .ok x, .ok y =>
    if h : x = y then .isTrue (congrArg Except.ok h)
    else .isFalse (fun hc => h (Except.ok.inj hc))
  | .error _, .ok _ => .isFalse (fun hc => Except.noConfusion hc)
  | .ok _, .error _ => .isFalse (fun hc => Except.noConfusion hc)

/-- The image `from_buffer` builds from a decoded header and pixel list
(including its over-long buffer — see C3). -/
def decodedImage (spec : ImageSpec) (data : List Pixel) : Image :=
  { width := spec.width, height := spec.height,
    transparent_color := spec.transparent_color.map Pixel.mk,
    pixels := data ++
      List.replicate (decoded_size spec ColorType.Rgb565 - data.length) ⟨0⟩ }

/-! ## Theorems -/

/-- An OR of a multiple of `2 ^ k` with a value below `2 ^ k` is their sum:
the two operands occupy disjoint bit ranges. -/
theorem or_mul_two_pow_add : ∀ (k a b : Nat), b < 2 ^ k → a * 2 ^ k ||| b = a * 2 ^ k + b := by
  intro k
  induction k with
  | zero =>
    intro a b hb
    have hb0 : b = 0 := by omega
    subst hb0
    simp
  | succ k ih =>
    intro a b hb
    have hpow : (2 : Nat) ^ (k + 1) = 2 ^ k * 2 := by ring
    have hsplit : a * 2 ^ (k + 1) = (a * 2 ^ k) * 2 := by ring
    have hx2 : a * 2 ^ (k + 1) % 2 = 0 := by omega
    have hdivL : a * 2 ^ (k + 1) / 2 = a * 2 ^ k := by omega
    have hdiv : (a * 2 ^ (k + 1) ||| b) / 2 = a * 2 ^ k ||| b / 2 := by
      rw [Nat.or_div_two, hdivL]
    have hiff := @Nat.or_mod_two_eq_one (a * 2 ^ (k + 1)) b
    have hmod : (a * 2 ^ (k + 1) ||| b) % 2 = b % 2 := by omega
    have hb2 : b / 2 < 2 ^ k := by omega
    have hih := ih a (b / 2) hb2
    have hx := Nat.div_add_mod (a * 2 ^ (k + 1) ||| b) 2
    omega

/-- Masking with a left-shifted mask equals shifting, masking, and shifting back. -/
theorem and_mask_shiftLeft (x m k : Nat) : x &&& (m <<< k) = ((x >>> k) &&& m) <<< k := by
  apply Nat.eq_of_testBit_eq
  intro i
  simp only [Nat.testBit_and, Nat.testBit_shiftLeft, Nat.testBit_shiftRight]
  by_cases h : k ≤ i
  · simp [show i ≥ k from h, Nat.add_sub_cancel' h, Bool.and_left_comm, Bool.and_comm]
  · simp [show ¬ (i ≥ k) from h]

/-- Extracting the 5-bit field at bits 11–15 (`0xF800`), arithmetically. -/
theorem and_F800 (x : Nat) : x &&& 0xF800 = x / 2048 % 32 * 2048 := by
  have h1 : (0xF800 : Nat) = 31 <<< 11 := by decide
  rw [h1, and_mask_shiftLeft, Nat.shiftRight_eq_div_pow,
    show (31 : Nat) = 2 ^ 5 - 1 from rfl, Nat.and_pow_two_sub_one_eq_mod, Nat.shiftLeft_eq]

/-- Extracting the 6-bit field at bits 5–10 (`0x07E0`), arithmetically. -/
theorem and_07E0 (x : Nat) : x &&& 0x07E0 = x / 32 % 64 * 32 := by
  have h1 : (0x07E0 : Nat) = 63 <<< 5 := by decide
  rw [h1, and_mask_shiftLeft, Nat.shiftRight_eq_div_pow,
    show (63 : Nat) = 2 ^ 6 - 1 from rfl, Nat.and_pow_two_sub_one_eq_mod, Nat.shiftLeft_eq]

/-- Extracting the 5-bit field at bits 0–4 (`0x1F`), arithmetically. -/
theorem and_001F (x : Nat) : x &&& 0x1F = x % 32 := by
  rw [show (0x1F : Nat) = 2 ^ 5 - 1 from rfl, Nat.and_pow_two_sub_one_eq_mod]

/-- Masking with `0x07FF` (the `u16` complement of the red mask) keeps the low 11 bits. -/
theorem and_07FF (x : Nat) : x &&& 0x07FF = x % 2048 := by
  rw [show (0x07FF : Nat) = 2 ^ 11 - 1 from rfl, Nat.and_pow_two_sub_one_eq_mod]

/-- Masking with `0xF81F` (the `u16` complement of the green mask) keeps the
red and blue fields. -/
theorem and_F81F (x : Nat) : x &&& 0xF81F = x / 2048 % 32 * 2048 + x % 32 := by
  have h1 : (0xF81F : Nat) = 0xF800 ||| 0x1F := by decide
  rw [h1, Nat.and_or_distrib_left, and_F800, and_001F]
  have h2 : x / 2048 % 32 * 2048 = (x / 2048 % 32 * 64) * 2 ^ 5 := by ring
  have h3 : x % 32 < 2 ^ 5 := by omega
  rw [h2, or_mul_two_pow_add 5 _ _ h3]

/-- Masking with `0xFFE0` (the `u16` complement of the blue mask) keeps bits 5–15. -/
theorem and_FFE0 (x : Nat) : x &&& 0xFFE0 = x / 32 % 2048 * 32 := by
  have h1 : (0xFFE0 : Nat) = 0x07FF <<< 5 := by decide
  rw [h1, and_mask_shiftLeft, Nat.shiftRight_eq_div_pow,
    show (0x07FF : Nat) = 2 ^ 11 - 1 from rfl, Nat.and_pow_two_sub_one_eq_mod, Nat.shiftLeft_eq]

/-- The three channel fields of a packed value, written arithmetically:
red is bits 11–15, green bits 5–10, blue bits 0–4. -/
theorem pixel_field_extract (p : Pixel) :
    (p.val &&& Pixel.R_MASK) >>> 11 = p.val / 2048 % 32 ∧
    (p.val &&& Pixel.G_MASK) >>> 5 = p.val / 32 % 64 ∧
    p.val &&& Pixel.B_MASK = p.val % 32 := by
  refine ⟨?_, ?_, and_001F p.val⟩
  · rw [show Pixel.R_MASK = 0xF800 from rfl, and_F800, Nat.shiftRight_eq_div_pow]
    norm_num
  · rw [show Pixel.G_MASK = 0x07E0 from rfl, and_07E0, Nat.shiftRight_eq_div_pow]
    norm_num

/-- Bit-replication of a 5-bit field into 8 bits: shift left 3, OR in the top
3 bits (`f >> 2`); numerically `f * 8 + f / 4`. -/
theorem replicate5 (f : Nat) (hf : f < 32) : (f <<< 3) ||| (f >>> 2) = f * 8 + f / 4 := by
  rw [Nat.shiftLeft_eq, Nat.shiftRight_eq_div_pow,
    or_mul_two_pow_add 3 f (f / 2 ^ 2) (by omega)]
  norm_num

/-- Bit-replication of a 6-bit field into 8 bits: shift left 2, OR in the top
2 bits (`f >> 4`); numerically `f * 4 + f / 16`. -/
theorem replicate6 (f : Nat) (hf : f < 64) : (f <<< 2) ||| (f >>> 4) = f * 4 + f / 16 := by
  rw [Nat.shiftLeft_eq, Nat.shiftRight_eq_div_pow,
    or_mul_two_pow_add 2 f (f / 2 ^ 4) (by omega)]
  norm_num

/-- Claim C7: the channel getters `r`, `g`, `b` return the stored 5- or 6-bit
field left-shifted to 8 bits with the field's own top bits OR-ed into the
missing low bits (for a field `f`: `f * 8 + f / 4` for the 5-bit red/blue
fields, `f * 4 + f / 16` for the 6-bit green field); consequently a
full-intensity stored field (`0x1F` red/blue, `0x3F` green) reads back as
exactly 255 and a zero field reads back as exactly 0. -/
theorem pixel_channel_read_replication (p : Pixel) :
    (Pixel.r p = p.val / 2048 % 32 * 8 + p.val / 2048 % 32 / 4) ∧
    (Pixel.g p = p.val / 32 % 64 * 4 + p.val / 32 % 64 / 16) ∧
    (Pixel.b p = p.val % 32 * 8 + p.val % 32 / 4) ∧
    (p.val / 2048 % 32 = 0x1F → Pixel.r p = 255) ∧
    (p.val / 2048 % 32 = 0 → Pixel.r p = 0) ∧
    (p.val / 32 % 64 = 0x3F → Pixel.g p = 255) ∧
    (p.val / 32 % 64 = 0 → Pixel.g p = 0) ∧
    (p.val % 32 = 0x1F → Pixel.b p = 255) ∧
    (p.val % 32 = 0 → Pixel.b p = 0) := by
  obtain ⟨e1, e2, e3⟩ := pixel_field_extract p
  have hR : Pixel.r p = p.val / 2048 % 32 * 8 + p.val / 2048 % 32 / 4 := by
    simp only [Pixel.r]
    rw [e1]
    exact replicate5 _ (by omega)
  have hG : Pixel.g p = p.val / 32 % 64 * 4 + p.val / 32 % 64 / 16 := by
    simp only [Pixel.g]
    rw [e2]
    exact replicate6 _ (by omega)
  have hB : Pixel.b p = p.val % 32 * 8 + p.val % 32 / 4 := by
    simp only [Pixel.b]
    rw [e3]
    exact replicate5 _ (by omega)
  refine ⟨hR, hG, hB, ?_, ?_, ?_, ?_, ?_, ?_⟩ <;> intro h <;>
    simp only [hR, hG, hB, h]

/-- Witness for C7 at concrete pixels: full-intensity red field reads 255,
zero green field reads 0, full blue field reads 255. -/
theorem pixel_channel_read_replication_witness :
    Pixel.r ⟨0xF800⟩ = 255 ∧ Pixel.g ⟨0xF81F⟩ = 0 ∧ Pixel.b ⟨0x001F⟩ = 255 :=
  ⟨(pixel_channel_read_replication ⟨0xF800⟩).2.2.2.1 (by decide),
   (pixel_channel_read_replication ⟨0xF81F⟩).2.2.2.2.2.2.1 (by decide),
   (pixel_channel_read_replication ⟨0x001F⟩).2.2.2.2.2.2.2.1 (by decide)⟩

/-- Claim C8: for every pixel and every `u8` input `v`, `set_r`/`set_g`/`set_b`
store exactly the truncation of `v` to the channel width (`v / 8` for the
5-bit red/blue fields, `v / 4` for the 6-bit green field) into that channel's
bit field and leave the bits of the other two channel fields unchanged. -/
theorem pixel_channel_write_truncate (p : Pixel) (v : Nat) (hv : v < 256) :
    ((Pixel.set_r p v).val / 2048 % 32 = v / 8 ∧
      (Pixel.set_r p v).val / 32 % 64 = p.val / 32 % 64 ∧
      (Pixel.set_r p v).val % 32 = p.val % 32) ∧
    ((Pixel.set_g p v).val / 32 % 64 = v / 4 ∧
      (Pixel.set_g p v).val / 2048 % 32 = p.val / 2048 % 32 ∧
      (Pixel.set_g p v).val % 32 = p.val % 32) ∧
    ((Pixel.set_b p v).val % 32 = v / 8 ∧
      (Pixel.set_b p v).val / 2048 % 32 = p.val / 2048 % 32 ∧
      (Pixel.set_b p v).val / 32 % 64 = p.val / 32 % 64) := by
  have hvr : (Pixel.set_r p v).val = v / 8 * 2048 + p.val % 2048 := by
    simp only [Pixel.set_r]
    have eA : (v <<< (11 - 3)) &&& Pixel.R_MASK = v / 8 * 2048 := by
      rw [show Pixel.R_MASK = 0xF800 from rfl, and_F800, Nat.shiftLeft_eq]
      norm_num
      omega
    rw [eA, and_07FF, show v / 8 * 2048 = v / 8 * 2 ^ 11 by norm_num,
      or_mul_two_pow_add 11 _ _ (show p.val % 2048 < 2 ^ 11 by omega)]
  have hvg : (Pixel.set_g p v).val =
      p.val / 2048 % 32 * 2048 + v / 4 * 32 + p.val % 32 := by
    simp only [Pixel.set_g]
    have eA : (v <<< (5 - 2)) &&& Pixel.G_MASK = v / 4 * 32 := by
      rw [show Pixel.G_MASK = 0x07E0 from rfl, and_07E0, Nat.shiftLeft_eq]
      norm_num
      omega
    have eM : p.val &&& 0xF81F = (p.val / 2048 % 32 * 2048) ||| (p.val % 32) := by
      rw [show (0xF81F : Nat) = 0xF800 ||| 0x1F by decide, Nat.and_or_distrib_left,
        and_F800, and_001F]
    have h1 : p.val / 2048 % 32 * 2048 ||| v / 4 * 32 =
        p.val / 2048 % 32 * 2048 + v / 4 * 32 := by
      rw [show p.val / 2048 % 32 * 2048 = p.val / 2048 % 32 * 2 ^ 11 by norm_num,
        or_mul_two_pow_add 11 _ _ (show v / 4 * 32 < 2 ^ 11 by omega)]
    have h2 : (p.val / 2048 % 32 * 2048 + v / 4 * 32) ||| p.val % 32 =
        p.val / 2048 % 32 * 2048 + v / 4 * 32 + p.val % 32 := by
      rw [show p.val / 2048 % 32 * 2048 + v / 4 * 32 =
            (p.val / 2048 % 32 * 64 + v / 4) * 2 ^ 5 by ring,
        or_mul_two_pow_add 5 _ _ (show p.val % 32 < 2 ^ 5 by omega)]
    rw [eA, eM, ← Nat.or_assoc, Nat.or_comm (v / 4 * 32), h1, h2]
  have hvb : (Pixel.set_b p v).val = p.val / 32 % 2048 * 32 + v / 8 := by
    simp only [Pixel.set_b]
    rw [and_FFE0, Nat.shiftRight_eq_div_pow, Nat.or_comm,
      show p.val / 32 % 2048 * 32 = p.val / 32 % 2048 * 2 ^ 5 by norm_num,
      or_mul_two_pow_add 5 _ _ (show v / 2 ^ 3 < 2 ^ 5 by omega)]
    norm_num
  refine ⟨⟨?_, ?_, ?_⟩, ⟨?_, ?_, ?_⟩, ⟨?_, ?_, ?_⟩⟩ <;>
    simp only [hvr, hvg, hvb] <;> omega

/-- Witness for C8 at `p = 0xFFFF`, `v = 0`: writing 0 to the red channel
clears the red field and keeps green and blue. -/
theorem pixel_channel_write_truncate_witness :
    (Pixel.set_r ⟨0xFFFF⟩ 0).val / 2048 % 32 = 0 / 8 ∧
    (Pixel.set_r ⟨0xFFFF⟩ 0).val / 32 % 64 = (0xFFFF : Nat) / 32 % 64 ∧
    (Pixel.set_r ⟨0xFFFF⟩ 0).val % 32 = (0xFFFF : Nat) % 32 :=
  (pixel_channel_write_truncate ⟨0xFFFF⟩ 0 (by decide)).1

/-- Claim C1 (code bug): the claim — matching the spec's required AND-combined
range check — says `get_pixel`/`get_pixel_mut` return `none` exactly outside
`[0,width) × [0,height)`, in particular at `(width, 0)`, `(0, height)` and
`(width, height)`. The source combines the checks with `||`, so on a 2×2
image `(2, 0)` and `(0, 2)` pass the check: `(2, 0)` silently yields the
pixel stored at linear index 2 — the pixel of coordinate `(0, 1)`. Only
`(width, height)` is rejected. -/
theorem get_pixel_or_check_bug :
    Image.get_pixel (Image.new 2 2) 2 0 = some Pixel.BLACK ∧
    Image.get_pixel_mut (Image.new 2 2) 2 0 = some Pixel.BLACK ∧
    Image.get_pixel (Image.new 2 2) 0 2 ≠ none ∧
    Image.get_pixel (Image.new 2 2) 2 2 = none := by
  decide

/-- Claim C2 (code bug): `nth(n)` must agree with `n+1` calls of `next`, both
in the yielded pair and in the remaining count afterwards. The source's `nth`
recomputes only `x` from the linear offset and never advances `y`, so a skip
that crosses a row end disagrees: from a fresh 2×2 iterator, `nth 2` yields
`(0, 0)` with 3 remaining, while three `next` calls yield `(0, 1)` with 1
remaining. -/
theorem nth_skip_row_bug :
    ((ImageIndex.new 2 2).nth 2).1 = some (0, 0) ∧
    ((ImageIndex.new 2 2).stepN 2).next.map Prod.fst = some (0, 1) ∧
    ((ImageIndex.new 2 2).nth 2).2.size_hint = 3 ∧
    ((ImageIndex.new 2 2).stepN 3).size_hint = 1 := by
  decide

/-- Claim C9: `nth` is total for every state and every `n`. Whenever `n` is at
least the exact remaining count — which is always the case when `width = 0` or
`height = 0`, since the remaining count is then 0 — `nth` takes the early
guard, sets the terminal state `(width, height)` and returns `none`; the
branch containing `linear % width` is never reached, so no modulo by zero
occurs. -/
theorem nth_guard_total (s : ImageIndex) (n : Nat) :
    (s.size_hint ≤ n →
      s.nth n = (none, { s with x := s.width, y := s.height })) ∧
    (s.width = 0 ∨ s.height = 0 →
      s.nth n = (none, { s with x := s.width, y := s.height })) := by
  have main : s.size_hint ≤ n →
      s.nth n = (none, { s with x := s.width, y := s.height }) := by
    intro hle
    simp only [ImageIndex.nth]
    rw [if_pos]
    exact hle
  refine ⟨main, fun h => main ?_⟩
  have h0 : s.width * s.height = 0 := by
    rcases h with h | h <;> simp [h]
  simp only [ImageIndex.size_hint]
  omega

/-- Witness for C9: a state with `width = 0` and a state where `n` exceeds the
remaining count both take the terminal guard. -/
theorem nth_guard_total_witness :
    ImageIndex.nth ⟨0, 7, 3, 2⟩ 5 = (none, ⟨0, 7, 0, 7⟩) ∧
    ImageIndex.nth ⟨4, 3, 2, 1⟩ 100 = (none, ⟨4, 3, 4, 3⟩) :=
  ⟨(nth_guard_total ⟨0, 7, 3, 2⟩ 5).2 (Or.inl rfl),
   (nth_guard_total ⟨4, 3, 2, 1⟩ 100).1 (by decide)⟩

/-- Claim C10: `set_transparent_color c` sets the transparent-color field to
exactly `c` (including clearing it for `none`) and leaves width, height and
the pixel buffer unchanged; reading `transparent_color` afterwards returns
exactly `c`. -/
theorem set_transparent_color_frame (img : Image) (c : Option Pixel) :
    (img.set_transparent_color c).transparent_color = c ∧
    (img.set_transparent_color c).width = img.width ∧
    (img.set_transparent_color c).height = img.height ∧
    (img.set_transparent_color c).pixels = img.pixels :=
  ⟨rfl, rfl, rfl, rfl⟩

/-- Claim C4 counterexample: indexing `imgFour` (width 2) at `(2, 0)` — out of
bounds, since `x = width` — does not abort: it silently returns the pixel
stored at linear index 2, which is the pixel of coordinate `(0, 1)`. -/
theorem index_tuple_oob_silent :
    Image.index_get imgFour 2 0 = some ⟨3⟩ ∧ imgFour.width ≤ 2 := by
  decide

/-- Claim C4 as amended: under the buffer-length invariant, indexing by the
`(x, y)` tuple aborts exactly when the linear offset `y*width + x` is at least
`width*height`; in particular `y ≥ height` always aborts, but an `(x, y)` with
`x ≥ width` whose linear offset is still in range is a silent read or write of
the pixel stored for a different coordinate. -/
theorem index_tuple_abort_iff (img : Image) (x y : Nat) (p : Pixel)
    (hinv : img.pixels.length = img.width * img.height) :
    (img.height ≤ y → img.index_get x y = none) ∧
    (img.index_get x y = none ↔
      img.width * img.height ≤ image_index x y img.width) ∧
    (img.index_set x y p = none ↔
      img.width * img.height ≤ image_index x y img.width) := by
  have hiff : img.index_get x y = none ↔
      img.width * img.height ≤ image_index x y img.width := by
    rw [Image.index_get, List.get?_eq_none, hinv]
  have hiff2 : img.index_set x y p = none ↔
      img.width * img.height ≤ image_index x y img.width := by
    by_cases hc : image_index x y img.width < img.pixels.length
    · rw [Image.index_set, if_pos hc]
      simp only [reduceCtorEq, false_iff]
      omega
    · rw [Image.index_set, if_neg hc]
      simp only [true_iff]
      omega
  refine ⟨?_, hiff, hiff2⟩
  intro hy
  apply hiff.mpr
  have h1 : img.height * img.width ≤ y * img.width :=
    Nat.mul_le_mul_right img.width hy
  have h2 : img.width * img.height = img.height * img.width := Nat.mul_comm _ _
  simp only [image_index]
  omega

/-- Witness for C4 (amended): on `imgFour`, reading at `(0, 5)` aborts
(`y ≥ height`), and writing at `(9, 9)` aborts (linear offset 27 ≥ 4). -/
theorem index_tuple_abort_iff_witness :
    Image.index_get imgFour 0 5 = none ∧
    Image.index_set imgFour 9 9 Pixel.BLACK = none :=
  ⟨(index_tuple_abort_iff imgFour 0 5 Pixel.BLACK (by decide)).1 (by decide),
   (index_tuple_abort_iff imgFour 9 9 Pixel.BLACK (by decide)).2.2.mpr (by decide)⟩

/-- Master lemma: from any in-row state (`x < width`), iterating to exhaustion
yields exactly the coordinates of linear offsets `done, done+1, …, total-1`,
each decoded as `(i % width, i / width)`. -/
theorem ImageIndex.toList_eq_range_map :
    ∀ (n w h x y : Nat), x < w → w * h - (y * w + x) = n →
      ImageIndex.toList ⟨w, h, x, y⟩ =
        (List.range n).map (fun i => ((y * w + x + i) % w, (y * w + x + i) / w)) := by
  intro n
  induction n with
  | zero =>
    intro w h x y hx hrem
    have hterm : ¬ (x < w ∧ y < h) := by
      intro hc
      have e1 : (y + 1) * w = y * w + w := by ring
      have e2 : (y + 1) * w ≤ h * w := Nat.mul_le_mul_right w (by omega)
      have e3 : w * h = h * w := Nat.mul_comm _ _
      omega
    rw [ImageIndex.toList.eq_def]
    split
    · rename_i p s' heq
      simp only [ImageIndex.next] at heq
      rw [if_neg hterm] at heq
      simp at heq
    · simp
  | succ n ih =>
    intro w h x y hx hrem
    have hy : y < h := by
      by_contra hy
      have e2 : h * w ≤ y * w := Nat.mul_le_mul_right w (by omega)
      have e3 : w * h = h * w := Nat.mul_comm _ _
      omega
    have hA : (y * w + x + 0) % w = x := by
      rw [show y * w + x + 0 = x + y * w by ring, Nat.add_mul_mod_self_right]
      exact Nat.mod_eq_of_lt hx
    have hB : (y * w + x + 0) / w = y := by
      rw [show y * w + x + 0 = x + y * w by ring,
        Nat.add_mul_div_right _ _ (show 0 < w by omega), Nat.div_eq_of_lt hx]
      omega
    rw [ImageIndex.toList.eq_def]
    split
    · rename_i p s' heq
      simp only [ImageIndex.next] at heq
      rw [if_pos ⟨hx, hy⟩, Option.some_inj] at heq
      have hp : p = (x, y) := (congrArg Prod.fst heq).symm
      have hs : s' = if x + 1 = w then ⟨w, h, 0, y + 1⟩ else ⟨w, h, x + 1, y⟩ :=
        (congrArg Prod.snd heq).symm
      subst hp
      rw [List.range_succ_eq_map, List.map_cons, List.map_map]
      by_cases hw : x + 1 = w
      · have hwrap : (y + 1) * w = y * w + x + 1 := by
          have e1 : (y + 1) * w = y * w + w := by ring
          omega
        have ihs := ih w h 0 (y + 1) (by omega) (by omega)
        rw [hs, if_pos hw, ihs]
        congr 1
        · rw [hA, hB]
        · apply List.map_congr_left
          intro i hi
          have e : (y + 1) * w + 0 + i = y * w + x + Nat.succ i := by omega
          simp only [Function.comp_apply, e]
      · have ihs := ih w h (x + 1) y (by omega) (by omega)
        rw [hs, if_neg hw, ihs]
        congr 1
        · rw [hA, hB]
        · apply List.map_congr_left
          intro i hi
          have e : y * w + (x + 1) + i = y * w + x + Nat.succ i := by omega
          simp only [Function.comp_apply, e]
    · rename_i heq
      simp only [ImageIndex.next] at heq
      rw [if_pos ⟨hx, hy⟩] at heq
      simp at heq

/-- Claim C6: for every image with positive width and height, iterating a
fresh `coordinates()` iterator to exhaustion yields exactly the
`width*height` coordinate pairs of the canonical row-major enumeration (the
`i`-th yielded pair is `(i % width, i / width)`, starting at `(0, 0)`), each
pair in bounds and each pair exactly once. -/
theorem coordinates_row_major (img : Image) (hw : 0 < img.width) (hh : 0 < img.height) :
    img.coordinates.toList =
      (List.range (img.width * img.height)).map (fun i => (i % img.width, i / img.width)) ∧
    img.coordinates.toList.length = img.width * img.height ∧
    img.coordinates.toList.Nodup ∧
    ∀ q ∈ img.coordinates.toList, q.1 < img.width ∧ q.2 < img.height := by
  have hmain : img.coordinates.toList =
      (List.range (img.width * img.height)).map
        (fun i => (i % img.width, i / img.width)) := by
    have hbase := ImageIndex.toList_eq_range_map (img.width * img.height)
      img.width img.height 0 0 hw (by simp)
    rw [show img.coordinates = (⟨img.width, img.height, 0, 0⟩ : ImageIndex) from rfl, hbase]
    apply List.map_congr_left
    intro i hi
    norm_num
  refine ⟨hmain, ?_, ?_, ?_⟩
  · rw [hmain]
    simp
  · rw [hmain]
    refine List.Nodup.map_on ?_ (List.nodup_range _)
    intro i hi j hj hf
    have h1 : i % img.width = j % img.width := congrArg Prod.fst hf
    have h2 : i / img.width = j / img.width := congrArg Prod.snd hf
    have h3 : img.width * (i / img.width) = img.width * (j / img.width) := by rw [h2]
    have d1 := Nat.div_add_mod i img.width
    have d2 := Nat.div_add_mod j img.width
    omega
  · rw [hmain]
    intro q hq
    simp only [List.mem_map, List.mem_range] at hq
    obtain ⟨i, hi, rfl⟩ := hq
    exact ⟨Nat.mod_lt _ hw, Nat.div_lt_of_lt_mul hi⟩

/-- Witness for C6 on a fresh 2×2 image: the iterator yields the canonical
row-major enumeration. -/
theorem coordinates_row_major_witness :
    (Image.new 2 2).coordinates.toList =
      (List.range (2 * 2)).map (fun i => (i % 2, i / 2)) :=
  (coordinates_row_major (Image.new 2 2) (by decide) (by decide)).1

/-- Claim C3 (code bug): the claim — the documented invariant — says every
image's buffer length is `width * height`. `new`, `with_transparent_color`
and `from_read` satisfy it, but `from_buffer` allocates `decoded_size`
(a byte count, `width * height * PIXEL_BYTES`) pixel *elements* without
dividing by the 2 bytes per pixel, so the image it returns for the 1×1
`demoBuf` has a pixel buffer of length 2, not 1 (and only the first element
was initialised by the decode). -/
theorem from_buffer_length_bug :
    (Image.from_buffer demoBuf).map (fun img => (img.width, img.height, img.pixels.length))
      = .ok (1, 1, 2) ∧
    (Image.from_read demoBuf).map (fun img => (img.width, img.height, img.pixels.length))
      = .ok (1, 1, 1) ∧
    (Image.new 3 4).pixels.length = 3 * 4 ∧
    (Image.with_transparent_color 3 4 Pixel.WHITE).pixels.length = 3 * 4 := by
  refine ⟨rfl, rfl, ?_, ?_⟩ <;> simp [Image.new, Image.with_transparent_color]

/-- Decoding a pixel plane yields one pixel per two bytes. -/
theorem decodePairs_length (e : PixelEndian) :
    ∀ bs : List Byte, (decodePairs e bs).length = bs.length / 2
  | [] => by simp [decodePairs]
  | [_] => by simp [decodePairs]
  | b0 :: b1 :: rest => by
    have ih := decodePairs_length e rest
    simp only [decodePairs, List.length_cons, ih]
    omega

/-- Re-encoding a decoded pixel plane with the same endianness reproduces the
bytes exactly (for even-length input). -/
theorem encodePixels_decodePairs (e : PixelEndian) :
    ∀ bs : List Byte, bs.length % 2 = 0 → encodePixels e (decodePairs e bs) = bs
  | [], _ => rfl
  | [_], h => by simp at h
  | b0 :: b1 :: rest, h => by
    have hb0 := b0.isLt
    have hb1 := b1.isLt
    have hlen : rest.length % 2 = 0 := by
      simp only [List.length_cons] at h
      omega
    have ih := encodePixels_decodePairs e rest hlen
    have hpair : pixelBytes e (combinePixel e b0 b1) = [b0, b1] := by
      cases e <;>
        simp only [pixelBytes, combinePixel, byteOf, List.cons.injEq, Fin.ext_iff,
          and_true] <;>
        omega
    simp only [decodePairs, encodePixels, hpair, ih]
    rfl

/-- The canonical header byte block written by `encode_header`, matched
against ten arbitrary leading buffer bytes. -/
theorem encode_header_bytes (wv hv : Nat) (tc : Option Nat) (pe : PixelEndian)
    (m0 m1 w0 w1 h0 h1 f t0 t1 e : Byte) (rest : List Byte)
    (hm0 : m0.val = 0x4C) (hm1 : m1.val = 0x49)
    (hw : wv = w0.val + 256 * w1.val) (hh : hv = h0.val + 256 * h1.val)
    (hnz : ¬ (wv = 0 ∨ hv = 0))
    (hf : (tc = none ∧ f.val = 0 ∧ t0.val = 0 ∧ t1.val = 0) ∨
      (tc = some (t0.val + 256 * t1.val) ∧ f.val = 1))
    (he : (pe = PixelEndian.Little ∧ e.val = 0) ∨ (pe = PixelEndian.Big ∧ e.val = 1)) :
    encode_header { width := wv, height := hv, transparent_color := tc, pixel_endian := pe }
      = .ok ((m0 :: m1 :: w0 :: w1 :: h0 :: h1 :: f :: t0 :: t1 :: e :: rest).take
          HEADER_SIZE) := by
  have hw0 := w0.isLt
  have hw1 := w1.isLt
  have hh0 := h0.isLt
  have hh1 := h1.isLt
  have ht0 := t0.isLt
  have ht1 := t1.isLt
  have htake : (m0 :: m1 :: w0 :: w1 :: h0 :: h1 :: f :: t0 :: t1 :: e :: rest).take
      HEADER_SIZE = [m0, m1, w0, w1, h0, h1, f, t0, t1, e] := rfl
  rw [htake, encode_header, if_neg hnz]
  refine congrArg Except.ok ?_
  rcases hf with ⟨rfl, hf0, ht0z, ht1z⟩ | ⟨rfl, hf1⟩ <;>
    rcases he with ⟨rfl, he0⟩ | ⟨rfl, he1⟩ <;>
    subst hw <;> subst hh <;>
    simp only [byteOf, Option.getD_none, Option.getD_some, List.cons.injEq, Fin.ext_iff,
      and_true] <;>
    refine ⟨by omega, by omega, by omega, by omega, by omega, by omega, by omega,
      by omega, by omega, by omega⟩

/-- Decoding a header and re-encoding the resulting metadata reproduces the
original header bytes exactly. -/
theorem encode_header_decode :
    ∀ (buf : List Byte) (spec : ImageSpec),
      decode_header buf = .ok spec →
      encode_header spec = .ok (buf.take HEADER_SIZE)
  | [], _, h => by simp [decode_header] at h
  | [_], _, h => by simp [decode_header] at h
  | [_, _], _, h => by simp [decode_header] at h
  | [_, _, _], _, h => by simp [decode_header] at h
  | [_, _, _, _], _, h => by simp [decode_header] at h
  | [_, _, _, _, _], _, h => by simp [decode_header] at h
  | [_, _, _, _, _, _], _, h => by simp [decode_header] at h
  | [_, _, _, _, _, _, _], _, h => by simp [decode_header] at h
  | [_, _, _, _, _, _, _, _], _, h => by simp [decode_header] at h
  | [_, _, _, _, _, _, _, _, _], _, h => by simp [decode_header] at h
  | m0 :: m1 :: w0 :: w1 :: h0 :: h1 :: f :: t0 :: t1 :: e :: rest, spec, h => by
    simp only [decode_header] at h
    split at h
    · split at h
      · split at h
        · split at h
          · exact absurd h (by simp)
          · rename_i hmagic hflag hendian hzero
            injection h with h2
            subst h2
            by_cases hf : f.val = 1
            · by_cases he : e.val = 0
              · rw [if_pos hf, if_pos he]
                exact encode_header_bytes _ _ _ _ m0 m1 w0 w1 h0 h1 f t0 t1 e rest
                  hmagic.1 hmagic.2 rfl rfl hzero (Or.inr ⟨rfl, hf⟩) (Or.inl ⟨rfl, he⟩)
              · rw [if_pos hf, if_neg he]
                exact encode_header_bytes _ _ _ _ m0 m1 w0 w1 h0 h1 f t0 t1 e rest
                  hmagic.1 hmagic.2 rfl rfl hzero (Or.inr ⟨rfl, hf⟩)
                  (Or.inr ⟨rfl, by omega⟩)
            · have hf0 : f.val = 0 ∧ t0.val = 0 ∧ t1.val = 0 := by
                rcases hflag with hok | hone
                · exact hok
                · exact absurd hone hf
              by_cases he : e.val = 0
              · rw [if_neg hf, if_pos he]
                exact encode_header_bytes _ _ _ _ m0 m1 w0 w1 h0 h1 f t0 t1 e rest
                  hmagic.1 hmagic.2 rfl rfl hzero
                  (Or.inl ⟨rfl, hf0.1, hf0.2.1, hf0.2.2⟩) (Or.inl ⟨rfl, he⟩)
              · rw [if_neg hf, if_neg he]
                exact encode_header_bytes _ _ _ _ m0 m1 w0 w1 h0 h1 f t0 t1 e rest
                  hmagic.1 hmagic.2 rfl rfl hzero
                  (Or.inl ⟨rfl, hf0.1, hf0.2.1, hf0.2.2⟩) (Or.inr ⟨rfl, by omega⟩)
        · exact absurd h (by simp)
      · exact absurd h (by simp)
    · exact absurd h (by simp)

theorem decodedImage_width (spec : ImageSpec) (data : List Pixel) :
    (decodedImage spec data).width = spec.width := rfl

theorem decodedImage_height (spec : ImageSpec) (data : List Pixel) :
    (decodedImage spec data).height = spec.height := rfl

theorem decodedImage_tc (spec : ImageSpec) (data : List Pixel) :
    (decodedImage spec data).transparent_color
      = spec.transparent_color.map Pixel.mk := rfl

theorem decodedImage_pixels (spec : ImageSpec) (data : List Pixel) :
    (decodedImage spec data).pixels = data ++
      List.replicate (decoded_size spec ColorType.Rgb565 - data.length) ⟨0⟩ := rfl

/-- Unfolding of `to_buffer_with_endian` (the header spec's `num_pixels` is
`width * height`). -/
theorem to_buffer_with_endian_eq (img : Image) (endian : PixelEndian) :
    img.to_buffer_with_endian endian =
      match encode_header
          { width := img.width, height := img.height,
            transparent_color := img.transparent_color.map Pixel.val,
            pixel_endian := endian } with
      | .error err => .error err
      | .ok header =>
        .ok (header ++ encodePixels endian
          (img.pixels.take (img.width * img.height))) := rfl

/-- Claim C5: for every byte buffer that `from_buffer` decodes successfully,
re-encoding the resulting image with `to_buffer_with_endian` at the
endianness recorded in the buffer's header reproduces the original bytes
exactly. (The encoded data slice is the first `width*height` pixels of the
buffer, so the round trip holds even though `from_buffer` over-allocates the
buffer — see C3.) -/
theorem from_buffer_roundtrip (buf : List Byte) (spec : ImageSpec) (img : Image)
    (hdec : decode_header buf = .ok spec)
    (himg : Image.from_buffer buf = .ok img) :
    img.to_buffer_with_endian spec.pixel_endian = .ok buf := by
  unfold Image.from_buffer at himg
  rw [hdec] at himg
  have himg2 : (match decode_data (buf.drop HEADER_SIZE) spec ColorType.Rgb565 with
      | .error err => (.error err : Except Error Image)
      | .ok data => .ok (decodedImage spec data)) = .ok img := himg
  cases hdata : decode_data (buf.drop HEADER_SIZE) spec ColorType.Rgb565 with
  | error err =>
    rw [hdata] at himg2
    exact absurd himg2 (by simp)
  | ok data =>
    rw [hdata] at himg2
    have himg3 : Except.ok (decodedImage spec data) = Except.ok img := himg2
    injection himg3 with himg4
    subst himg4
    have hlen : (buf.drop HEADER_SIZE).length = spec.num_pixels * 2 := by
      by_contra hne
      unfold decode_data at hdata
      rw [if_neg (by simpa [ColorType.bytes_per_pixel] using hne)] at hdata
      simp at hdata
    have hdata2 : data = decodePairs spec.pixel_endian (buf.drop HEADER_SIZE) := by
      unfold decode_data at hdata
      rw [if_pos (by simpa [ColorType.bytes_per_pixel] using hlen)] at hdata
      injection hdata with hdata
      exact hdata.symm
    have hdlen : data.length = spec.num_pixels := by
      rw [hdata2, decodePairs_length]
      omega
    have htc : (spec.transparent_color.map Pixel.mk).map Pixel.val
        = spec.transparent_color := by
      cases spec.transparent_color <;> rfl
    have hhdr : encode_header spec = .ok (buf.take HEADER_SIZE) :=
      encode_header_decode buf spec hdec
    have htake : (data ++
        List.replicate (decoded_size spec ColorType.Rgb565 - data.length)
          (⟨0⟩ : Pixel)).take (spec.width * spec.height) = data := by
      rw [show spec.width * spec.height = data.length by
            rw [hdlen]
            rfl,
        List.take_left]
    have hdata3 : encodePixels spec.pixel_endian data = buf.drop HEADER_SIZE := by
      rw [hdata2]
      exact encodePixels_decodePairs _ _ (by omega)
    rw [to_buffer_with_endian_eq]
    simp only [decodedImage_width, decodedImage_height, decodedImage_tc,
      decodedImage_pixels, htc]
    rw [show ({ width := spec.width, height := spec.height,
                transparent_color := spec.transparent_color,
                pixel_endian := spec.pixel_endian } : ImageSpec) = spec from rfl]
    rw [hhdr]
    show Except.ok (buf.take HEADER_SIZE ++ encodePixels spec.pixel_endian
        ((data ++
          List.replicate (decoded_size spec ColorType.Rgb565 - data.length)
            (⟨0⟩ : Pixel)).take (spec.width * spec.height))) = .ok buf
    rw [htake, hdata3, List.take_append_drop]

/-- Witness for C5: the concrete 1×1 buffer `demoBuf` decodes and re-encodes
to itself byte for byte. -/
theorem from_buffer_roundtrip_witness :
    (Image.from_buffer demoBuf).bind
      (fun img => img.to_buffer_with_endian PixelEndian.Little) = .ok demoBuf := by
  have h := from_buffer_roundtrip demoBuf
    { width := 1, height := 1, transparent_color := none, pixel_endian := .Little }
    { width := 1, height := 1, transparent_color := none,
      pixels := [⟨0xAB + 256 * 0xCD⟩, ⟨0⟩] }
    (by decide) (by decide)
  rw [show Image.from_buffer demoBuf
      = .ok { width := 1, height := 1, transparent_color := none,
              pixels := [⟨0xAB + 256 * 0xCD⟩, ⟨0⟩] } by decide]
  exact h

end Limg
